import Mathlib

/-!
Verification of the peridetic excess-demo core: the perturbative geodetic
foot-point solver and its sampling/validation harness
(src/tests/demoExcess.cpp and src/tests/periSim.h).

Real numbers stand in for C++ `double`; machine arithmetic on the sampled
values is exact in the algorithms considered here apart from rounding, so the
algebraic structure is faithfully captured over `ℝ`.

The geometry primitives (`peri::magnitude`, `peri::unit`,
`peri::ellip::radiusToward`, `Shape::gradientAt`, the exact transforms
`lpaForXyz` / `xyzForLpa`) live in headers that are not part of the visible
source; they are modelled from the spec where needed (doc comments say so),
and the exact transforms are kept abstract (plain function parameters).
-/

noncomputable section

/-- Square of a real value (peri::sq; header not under src/, the standard
squaring helper). -/
def periSq (x : ℝ) : ℝ := x * x

/-- Cartesian point: ordered triple of real components (peri::XYZ). -/
abbrev XYZ : Type := Fin 3 → ℝ

/-- Geodetic coordinate (longitude, parallel, altitude) (peri::LPA). -/
abbrev LPA : Type := Fin 3 → ℝ

/-- Euclidean magnitude of a 3-vector. Modelled from the spec: XYZ supports
magnitude as a pure operation (`peri::magnitude` is not under src/). -/
def magnitude (v : XYZ) : ℝ := Real.sqrt (∑ k, periSq (v k))

/-- Unit-normalized direction of a vector. Modelled from the spec: XYZ supports
unit-normalization as a pure operation (`peri::unit` is not under src/). -/
def unit (v : XYZ) : XYZ := (magnitude v)⁻¹ • v

/-- Ellipsoid shape descriptor holding the three coefficients `theMuSqs`
(peri::Shape, declaration only; body not under src/). The visible coefficient
code (demoExcess.cpp, zetaCoefficients) evaluates the ellipsoid implicit
function of a candidate surface point `n` as `(∑ k, periSq (n k) / theMuSqs k) - 1`
(variable `nPerMuSq`, offset `coC -= 1`), so `theMuSqs k` is the squared k-th
semi-axis length and a point `p` lies on the surface iff
`∑ k, periSq (p k) / theMuSqs k = 1`. -/
structure Shape where
  theMuSqs : Fin 3 → ℝ

/-- Modelled from the spec: `Shape::gradientAt` (body not under src/) returns
the gradient of the ellipsoid implicit function at any point, here the
gradient of `x ↦ (∑ k, periSq (x k) / theMuSqs k) - 1`. -/
def Shape.gradientAt (shape : Shape) (x : XYZ) : XYZ :=
  fun k => 2 * x k / shape.theMuSqs k

/-- Modelled from the spec: `peri::ellip::radiusToward` (body not under src/)
returns the distance from the origin to the ellipsoid-surface intersection
along the ray through the given direction; on a unit direction this is the
closed form `1 / √(∑ k, periSq (d k) / muSq k)`. -/
def radiusToward (dirVec : XYZ) (shape : Shape) : ℝ :=
  magnitude dirVec / Real.sqrt (∑ k, periSq (dirVec k) / shape.theMuSqs k)

/-- One iteration of the accumulation loop of `zetaCoefficients`
(demoExcess.cpp lines 286-297); the state is the accumulator
`(coA, coB, coC)` and `kk` is the loop index. -/
def zetaStep (xVec : XYZ) (eta0 grMag : ℝ) (shape : Shape)
    (acc : ℝ × ℝ × ℝ) (kk : Fin 3) : ℝ × ℝ × ℝ :=
  let fgkInv := 0.5 * grMag * shape.theMuSqs kk
  let s1k := 1 / (fgkInv + eta0)
  let n1k := s1k * fgkInv * xVec kk
  let nPerMuSq := periSq n1k / shape.theMuSqs kk
  (acc.1 + nPerMuSq * s1k * s1k, acc.2.1 + nPerMuSq * s1k, acc.2.2 + nPerMuSq)

/-- Quadratic coefficients `(coA, coB, coC)` for the correction variable zeta
(demoExcess.cpp, zetaCoefficients): loop over the three axes, then the final
adjustment `coA *= 3`, `coC -= 1`. -/
def zetaCoefficients (xVec : XYZ) (eta0 grMag : ℝ) (shape : Shape) : ℝ × ℝ × ℝ :=
  let raw := (List.finRange 3).foldl (zetaStep xVec eta0 grMag shape) (0, 0, 0)
  (3 * raw.1, raw.2.1, raw.2.2 - 1)

/-- Per-axis common factor `fgkInv` of zetaCoefficients, in closed form. -/
def fgkInvOf (grMag : ℝ) (shape : Shape) (k : Fin 3) : ℝ :=
  0.5 * grMag * shape.theMuSqs k

/-- Per-axis factor `s1k` of zetaCoefficients, in closed form. -/
def s1Of (eta0 grMag : ℝ) (shape : Shape) (k : Fin 3) : ℝ :=
  1 / (fgkInvOf grMag shape k + eta0)

/-- Per-axis numerator element `n1k` of zetaCoefficients, in closed form. -/
def n1Of (xVec : XYZ) (eta0 grMag : ℝ) (shape : Shape) (k : Fin 3) : ℝ :=
  s1Of eta0 grMag shape k * fgkInvOf grMag shape k * xVec k

/-- Per-axis summand `nPerMuSq` of zetaCoefficients, in closed form. -/
def nPerMuSqOf (xVec : XYZ) (eta0 grMag : ℝ) (shape : Shape) (k : Fin 3) : ℝ :=
  periSq (n1Of xVec eta0 grMag shape k) / shape.theMuSqs k

/-- Closed form of the accumulation loop: the loop over the three axes computes
the three sums, and the final adjustment is exactly `coA *= 3`, `coC -= 1`.
Shared helper used by several claim proofs. -/
theorem zetaCoefficients_closed (xVec : XYZ) (eta0 grMag : ℝ) (shape : Shape) :
    zetaCoefficients xVec eta0 grMag shape =
      (3 * ∑ k, nPerMuSqOf xVec eta0 grMag shape k * s1Of eta0 grMag shape k *
          s1Of eta0 grMag shape k,
       ∑ k, nPerMuSqOf xVec eta0 grMag shape k * s1Of eta0 grMag shape k,
       (∑ k, nPerMuSqOf xVec eta0 grMag shape k) - 1) := by
  have h3 : List.finRange 3 = [0, 1, 2] := by decide
  simp only [zetaCoefficients, zetaStep, h3, List.foldl, Fin.sum_univ_three,
    nPerMuSqOf, n1Of, s1Of, fgkInvOf]
  refine Prod.ext ?_ (Prod.ext ?_ ?_) <;> simp

/-- C1: for every input point `x`, pseudo-altitude `eta0`, gradient magnitude
`grMag > 0`, and shape with positive `muSq`, `zetaCoefficients` returns exactly
the triple obtained by accumulating, over the three axes, the summands built
from `fgkInv = 0.5*grMag*muSq k`, `s1k = 1/(fgkInv+eta0)`,
`n1k = s1k*fgkInv*x k`, `nPerMuSq = n1k^2/muSq k`, followed by the final
adjustment `coA *= 3`, `coC -= 1`. -/
theorem claim_C1 (xVec : XYZ) (eta0 grMag : ℝ) (shape : Shape)
    (hg : 0 < grMag) (hmu : ∀ k, 0 < shape.theMuSqs k) :
    zetaCoefficients xVec eta0 grMag shape =
      (3 * ∑ k, nPerMuSqOf xVec eta0 grMag shape k * s1Of eta0 grMag shape k *
          s1Of eta0 grMag shape k,
       ∑ k, nPerMuSqOf xVec eta0 grMag shape k * s1Of eta0 grMag shape k,
       (∑ k, nPerMuSqOf xVec eta0 grMag shape k) - 1) :=
  zetaCoefficients_closed xVec eta0 grMag shape

/-- Shape with all three `muSq` coefficients equal to 1 (unit sphere), used as
a concrete instance in witnesses. -/
def oneShape : Shape := ⟨fun _ => 1⟩

/-- Concrete point (1,1,1) used in witnesses. -/
def onesVec : XYZ := fun _ => 1

/-- Witness for C1 at a concrete input. -/
theorem claim_C1_witness :
    (0 : ℝ) < 1 ∧ (∀ k, 0 < oneShape.theMuSqs k) ∧
      zetaCoefficients onesVec 0 1 oneShape =
        (3 * ∑ k, nPerMuSqOf onesVec 0 1 oneShape k * s1Of 0 1 oneShape k *
            s1Of 0 1 oneShape k,
         ∑ k, nPerMuSqOf onesVec 0 1 oneShape k * s1Of 0 1 oneShape k,
         (∑ k, nPerMuSqOf onesVec 0 1 oneShape k) - 1) :=
  ⟨by norm_num, fun k => by simp [oneShape],
    claim_C1 onesVec 0 1 oneShape (by norm_num) (fun k => by simp [oneShape])⟩

/-- Radial point on the ellipsoid used by the solver as expansion basepoint
(demoExcess.cpp lines 314-316): `rho = radiusToward(xVec, shape)` applied to
the input point itself, then `rVec = rho * unit(xVec)`. -/
def rVecOf (xVec : XYZ) (shape : Shape) : XYZ :=
  radiusToward xVec shape • unit xVec

/-- Radial foot point as the excess check computes it (demoExcess.cpp lines
209-216): `rMag = radiusToward(xDir, shape)` with `xDir = unit(xVec)`, then
`rVec = rMag * xDir`. -/
def test1RVecOf (xVec : XYZ) (shape : Shape) : XYZ :=
  radiusToward (unit xVec) shape • unit xVec

/-- Gradient magnitude at the solver's radial basepoint (demoExcess.cpp lines
319-320). -/
def grMagOf (xVec : XYZ) (shape : Shape) : ℝ :=
  magnitude (shape.gradientAt (rVecOf xVec shape))

/-- Radial pseudo-altitude of the solver (demoExcess.cpp line 323). -/
def eta0Of (xVec : XYZ) (shape : Shape) : ℝ :=
  magnitude (xVec - rVecOf xVec shape)

/-- Perturbative foot-point solver (demoExcess.cpp, pVecViaExcess): second
order truncated binomial expansion for zeta, then the componentwise
reconstruction `p[k] = x[k] / (1 + correction / muSq[k])`. -/
def pVecViaExcess (xVec : XYZ) (shape : Shape) : XYZ :=
  let grMag := grMagOf xVec shape
  let eta0 := eta0Of xVec shape
  let co := zetaCoefficients xVec eta0 grMag shape
  let coA := co.1
  let coB := co.2.1
  let coC := co.2.2
  let xArg := coA * coC / periSq coB
  let fracCoB := coC / coB
  let zetaApx2 := fracCoB * (1 / 2 + 1 / 8 * xArg)
  let correction := 2 * (zetaApx2 + eta0) / grMag
  fun k => xVec k / (1 + correction / shape.theMuSqs k)

/-- Formula of the solver in terms of its coefficient triple: shared helper
(the solver definition unfolds to exactly this expression). -/
theorem pVec_formula (xVec : XYZ) (shape : Shape) :
    pVecViaExcess xVec shape = fun k =>
      xVec k /
        (1 +
          2 *
            ((zetaCoefficients xVec (eta0Of xVec shape) (grMagOf xVec shape) shape).2.2 /
                (zetaCoefficients xVec (eta0Of xVec shape) (grMagOf xVec shape) shape).2.1 *
                (1 / 2 +
                  1 / 8 *
                    ((zetaCoefficients xVec (eta0Of xVec shape) (grMagOf xVec shape) shape).1 *
                        (zetaCoefficients xVec (eta0Of xVec shape) (grMagOf xVec shape) shape).2.2 /
                      periSq
                        (zetaCoefficients xVec (eta0Of xVec shape) (grMagOf xVec shape) shape).2.1)) +
              eta0Of xVec shape) /
            grMagOf xVec shape / shape.theMuSqs k) := rfl

/-- C2: given the coefficients of `zetaCoefficients` with `coB ≠ 0` and
gradient magnitude `grMag ≠ 0`, the solver computes its result with no square
root beyond those already inside its inputs, via
`zeta = (coC/coB) * (1/2 + (1/8) * xArg)` with `xArg = coA*coC/coB^2`, then
`correction = 2*(zeta + eta0)/grMag`, returning the point whose k-th component
is `x[k] / (1 + correction / muSq[k])`. -/
theorem claim_C2 (xVec : XYZ) (shape : Shape)
    (hB : (zetaCoefficients xVec (eta0Of xVec shape) (grMagOf xVec shape) shape).2.1 ≠ 0)
    (hg : grMagOf xVec shape ≠ 0) :
    pVecViaExcess xVec shape = fun k =>
      xVec k /
        (1 +
          2 *
            ((zetaCoefficients xVec (eta0Of xVec shape) (grMagOf xVec shape) shape).2.2 /
                (zetaCoefficients xVec (eta0Of xVec shape) (grMagOf xVec shape) shape).2.1 *
                (1 / 2 +
                  1 / 8 *
                    ((zetaCoefficients xVec (eta0Of xVec shape) (grMagOf xVec shape) shape).1 *
                        (zetaCoefficients xVec (eta0Of xVec shape) (grMagOf xVec shape) shape).2.2 /
                      periSq
                        (zetaCoefficients xVec (eta0Of xVec shape) (grMagOf xVec shape) shape).2.1)) +
              eta0Of xVec shape) /
            grMagOf xVec shape / shape.theMuSqs k) :=
  pVec_formula xVec shape

/-- Evaluation helper: the magnitude of a vector whose squared components sum
to `c * c` with `0 ≤ c` is `c`. -/
theorem magnitude_eval (v : XYZ) (c : ℝ) (hc : 0 ≤ c)
    (h : periSq (v 0) + periSq (v 1) + periSq (v 2) = c * c) : magnitude v = c := by
  rw [magnitude, Fin.sum_univ_three, h, Real.sqrt_mul_self hc]

/-- Square-root evaluation helper for concrete inputs. -/
theorem sqrt_eval (a c : ℝ) (hc : 0 ≤ c) (h : a = c * c) : Real.sqrt a = c := by
  rw [h, Real.sqrt_mul_self hc]

/-- Magnitude is nonnegative. -/
theorem magnitude_nonneg (v : XYZ) : 0 ≤ magnitude v := Real.sqrt_nonneg _

/-- Magnitude of a nonzero vector is positive. -/
theorem magnitude_pos (v : XYZ) (hv : v ≠ 0) : 0 < magnitude v := by
  obtain ⟨k, hk⟩ := Function.ne_iff.mp hv
  have hsum : 0 < ∑ j, periSq (v j) := by
    refine Finset.sum_pos' (fun j _ => mul_self_nonneg (v j)) ⟨k, Finset.mem_univ k, ?_⟩
    exact mul_self_pos.mpr hk
  exact Real.sqrt_pos.mpr hsum

/-- Magnitude scales by the absolute value of a scalar factor. -/
theorem magnitude_smul (c : ℝ) (v : XYZ) : magnitude (c • v) = |c| * magnitude v := by
  have h : ∑ k, periSq ((c • v) k) = c * c * ∑ k, periSq (v k) := by
    rw [Finset.mul_sum]
    refine Finset.sum_congr rfl fun k _ => ?_
    simp [periSq, Pi.smul_apply, smul_eq_mul]
    ring
  rw [magnitude, h, Real.sqrt_mul (mul_self_nonneg c), Real.sqrt_mul_self_eq_abs, magnitude]

/-- The unit-normalized direction of a nonzero vector has magnitude 1. -/
theorem magnitude_unit (v : XYZ) (hv : v ≠ 0) : magnitude (unit v) = 1 := by
  have hm : 0 < magnitude v := magnitude_pos v hv
  rw [unit, magnitude_smul, abs_of_nonneg (inv_nonneg.mpr hm.le), inv_mul_cancel₀ hm.ne']

/-- The weighted square sum of `unit v` factors through the one of `v`. -/
theorem radius_sum_unit (v : XYZ) (shape : Shape) :
    ∑ k, periSq (unit v k) / shape.theMuSqs k =
      (magnitude v)⁻¹ * (magnitude v)⁻¹ * ∑ k, periSq (v k) / shape.theMuSqs k := by
  rw [Finset.mul_sum]
  refine Finset.sum_congr rfl fun k _ => ?_
  simp [unit, periSq, Pi.smul_apply, smul_eq_mul]
  ring

/-- C3: for every nonzero input point and every shape, the solver's expansion
basepoint `radiusToward(x) * unit(x)` coincides with the radial foot point
`radiusToward(unit(x)) * unit(x)` computed by the excess check: the modelled
`radiusToward` is invariant under normalization of its direction argument. -/
theorem claim_C3 (xVec : XYZ) (shape : Shape) (hx : xVec ≠ 0) :
    radiusToward xVec shape = radiusToward (unit xVec) shape ∧
      rVecOf xVec shape = test1RVecOf xVec shape := by
  have hm : 0 < magnitude xVec := magnitude_pos xVec hx
  have hscale : radiusToward (unit xVec) shape = radiusToward xVec shape := by
    rw [radiusToward, radiusToward, magnitude_unit xVec hx, radius_sum_unit,
      Real.sqrt_mul (mul_self_nonneg _), sqrt_eval ((magnitude xVec)⁻¹ * (magnitude xVec)⁻¹)
        (magnitude xVec)⁻¹ (inv_nonneg.mpr hm.le) rfl]
    rw [one_div, mul_inv, inv_inv, div_eq_mul_inv]
  exact ⟨hscale.symm, by rw [rVecOf, test1RVecOf, hscale]⟩

/-- Concrete point (3,4,0) used in the C3 witness. -/
def threeFourVec : XYZ := ![3, 4, 0]

/-- Witness for C3 at a concrete input. -/
theorem claim_C3_witness :
    threeFourVec ≠ 0 ∧
      (radiusToward threeFourVec oneShape = radiusToward (unit threeFourVec) oneShape ∧
        rVecOf threeFourVec oneShape = test1RVecOf threeFourVec oneShape) := by
  have hx : threeFourVec ≠ 0 := by
    intro h
    have h0 := congrFun h 0
    simp [threeFourVec] at h0
  exact ⟨hx, claim_C3 threeFourVec oneShape hx⟩

/-- Concrete point (2,0,0) used in the C2 witness. -/
def twoVec : XYZ := ![2, 0, 0]

/-- Magnitude of (2,0,0) is 2. -/
theorem twoVec_magnitude : magnitude twoVec = 2 := by
  refine magnitude_eval twoVec 2 (by norm_num) ?_
  simp [twoVec, periSq]

/-- Unit direction of (2,0,0). -/
theorem twoVec_unit : unit twoVec = ![1, 0, 0] := by
  funext k
  rw [unit, twoVec_magnitude]
  fin_cases k <;> simp [twoVec]

/-- The solver's radial basepoint at (2,0,0) on the unit sphere. -/
theorem twoVec_rVec : rVecOf twoVec oneShape = ![1, 0, 0] := by
  have hrad : radiusToward twoVec oneShape = 1 := by
    rw [radiusToward, twoVec_magnitude]
    have hs : ∑ k, periSq (twoVec k) / oneShape.theMuSqs k = 2 * 2 := by
      simp [twoVec, oneShape, periSq, Fin.sum_univ_three]
    rw [hs, sqrt_eval (2 * 2) 2 (by norm_num) rfl]
    norm_num
  rw [rVecOf, hrad, twoVec_unit, one_smul]

/-- Gradient magnitude of the solver at (2,0,0) on the unit sphere. -/
theorem twoVec_grMag : grMagOf twoVec oneShape = 2 := by
  rw [grMagOf, twoVec_rVec]
  refine magnitude_eval _ 2 (by norm_num) ?_
  simp [Shape.gradientAt, oneShape, periSq]

/-- Radial pseudo-altitude of the solver at (2,0,0) on the unit sphere. -/
theorem twoVec_eta0 : eta0Of twoVec oneShape = 1 := by
  rw [eta0Of, twoVec_rVec]
  refine magnitude_eval _ 1 (by norm_num) ?_
  simp [twoVec, periSq]
  norm_num

/-- Coefficients of the C2 witness instance. -/
theorem twoVec_coeffs : zetaCoefficients twoVec 1 2 oneShape = (3 / 4, 1 / 2, 0) := by
  rw [zetaCoefficients_closed]
  refine Prod.ext ?_ (Prod.ext ?_ ?_) <;>
    · simp [Fin.sum_univ_three, nPerMuSqOf, n1Of, s1Of, fgkInvOf, periSq, oneShape, twoVec]
      norm_num

/-- Witness for C2 at a concrete input. -/
theorem claim_C2_witness :
    (zetaCoefficients twoVec (eta0Of twoVec oneShape) (grMagOf twoVec oneShape) oneShape).2.1 ≠ 0 ∧
      grMagOf twoVec oneShape ≠ 0 ∧
      pVecViaExcess twoVec oneShape = fun k =>
        twoVec k /
          (1 +
            2 *
              ((zetaCoefficients twoVec (eta0Of twoVec oneShape) (grMagOf twoVec oneShape)
                      oneShape).2.2 /
                  (zetaCoefficients twoVec (eta0Of twoVec oneShape) (grMagOf twoVec oneShape)
                      oneShape).2.1 *
                  (1 / 2 +
                    1 / 8 *
                      ((zetaCoefficients twoVec (eta0Of twoVec oneShape) (grMagOf twoVec oneShape)
                              oneShape).1 *
                          (zetaCoefficients twoVec (eta0Of twoVec oneShape)
                              (grMagOf twoVec oneShape) oneShape).2.2 /
                        periSq
                          (zetaCoefficients twoVec (eta0Of twoVec oneShape)
                              (grMagOf twoVec oneShape) oneShape).2.1)) +
                eta0Of twoVec oneShape) /
              grMagOf twoVec oneShape / oneShape.theMuSqs k) := by
  have hB : (zetaCoefficients twoVec (eta0Of twoVec oneShape) (grMagOf twoVec oneShape)
      oneShape).2.1 ≠ 0 := by
    rw [twoVec_eta0, twoVec_grMag, twoVec_coeffs]
    norm_num
  have hg : grMagOf twoVec oneShape ≠ 0 := by rw [twoVec_grMag]; norm_num
  exact ⟨hB, hg, claim_C2 twoVec oneShape hB hg⟩

/-- Magnitude of the zero vector is zero. -/
theorem magnitude_zero : magnitude (0 : XYZ) = 0 := by
  simp [magnitude, periSq]

/-- C4 (amended): for every point `p` on the ellipsoid surface in the
convention of the visible coefficient code, `∑ k, p[k]^2 / muSq[k] = 1`
(with positive `muSq` and `p ≠ 0`), the foot-point solver returns `p`
exactly (in real arithmetic). -/
theorem claim_C4_amended (shape : Shape) (p : XYZ)
    (hmu : ∀ k, 0 < shape.theMuSqs k) (hp : p ≠ 0)
    (hsurf : ∑ k, periSq (p k) / shape.theMuSqs k = 1) :
    pVecViaExcess p shape = p := by
  have hm : 0 < magnitude p := magnitude_pos p hp
  have hrad : radiusToward p shape = magnitude p := by
    rw [radiusToward, hsurf, Real.sqrt_one, div_one]
  have hr : rVecOf p shape = p := by
    rw [rVecOf, hrad, unit, smul_smul, mul_inv_cancel₀ hm.ne', one_smul]
  have heta : eta0Of p shape = 0 := by
    rw [eta0Of, hr, sub_self, magnitude_zero]
  have hgvec : shape.gradientAt p ≠ 0 := by
    obtain ⟨k, hk⟩ := Function.ne_iff.mp hp
    refine Function.ne_iff.mpr ⟨k, ?_⟩
    simp only [Shape.gradientAt, Pi.zero_apply]
    exact div_ne_zero (mul_ne_zero two_ne_zero hk) (hmu k).ne'
  have hg : 0 < grMagOf p shape := by
    rw [grMagOf, hr]
    exact magnitude_pos _ hgvec
  have hnPer : ∀ k, nPerMuSqOf p 0 (grMagOf p shape) shape k =
      periSq (p k) / shape.theMuSqs k := by
    intro k
    have hf : fgkInvOf (grMagOf p shape) shape k ≠ 0 := by
      rw [fgkInvOf]
      exact (mul_pos (mul_pos (by norm_num) hg) (hmu k)).ne'
    rw [nPerMuSqOf, n1Of, s1Of, add_zero, one_div, inv_mul_cancel₀ hf, one_mul]
  have hcoC : (zetaCoefficients p 0 (grMagOf p shape) shape).2.2 = 0 := by
    rw [zetaCoefficients_closed]
    have hsum : ∑ k, nPerMuSqOf p 0 (grMagOf p shape) shape k = 1 := by
      rw [Finset.sum_congr rfl fun k _ => hnPer k, hsurf]
    simpa using sub_eq_zero_of_eq hsum
  rw [pVec_formula p shape, heta, hcoC]
  funext k
  simp

/-- Concrete off-surface instance for the C4 counterexample: sphere of squared
semi-axis 4 in the code's convention. -/
def fourShape : Shape := ⟨fun _ => 4⟩

/-- Concrete point (1/2, 0, 0): it satisfies the claim's surface equation
`∑ muSq[k]*p[k]^2 = 1` for `fourShape` but lies far inside the surface of the
code's convention. -/
def quarterVec : XYZ := ![1 / 2, 0, 0]

/-- Magnitude of (1/2,0,0) is 1/2. -/
theorem quarterVec_magnitude : magnitude quarterVec = 1 / 2 := by
  refine magnitude_eval quarterVec (1 / 2) (by norm_num) ?_
  simp [quarterVec, periSq]

/-- Unit direction of (1/2,0,0). -/
theorem quarterVec_unit : unit quarterVec = ![1, 0, 0] := by
  funext k
  rw [unit, quarterVec_magnitude]
  fin_cases k <;> simp [quarterVec]

/-- The solver's radial basepoint at (1/2,0,0) on `fourShape`. -/
theorem quarterVec_rVec : rVecOf quarterVec fourShape = ![2, 0, 0] := by
  have hrad : radiusToward quarterVec fourShape = 2 := by
    rw [radiusToward, quarterVec_magnitude]
    have hs : ∑ k, periSq (quarterVec k) / fourShape.theMuSqs k = 1 / 4 * (1 / 4) := by
      simp [quarterVec, fourShape, periSq, Fin.sum_univ_three]
      norm_num
    rw [hs, sqrt_eval (1 / 4 * (1 / 4)) (1 / 4) (by norm_num) rfl]
    norm_num
  rw [rVecOf, hrad, quarterVec_unit]
  funext k
  fin_cases k <;> simp

/-- Gradient magnitude of the solver at (1/2,0,0) on `fourShape`. -/
theorem quarterVec_grMag : grMagOf quarterVec fourShape = 1 := by
  rw [grMagOf, quarterVec_rVec]
  refine magnitude_eval _ 1 (by norm_num) ?_
  simp [Shape.gradientAt, fourShape, periSq]
  norm_num

/-- Radial pseudo-altitude of the solver at (1/2,0,0) on `fourShape`. -/
theorem quarterVec_eta0 : eta0Of quarterVec fourShape = 3 / 2 := by
  rw [eta0Of, quarterVec_rVec]
  refine magnitude_eval _ (3 / 2) (by norm_num) ?_
  simp [quarterVec, periSq]
  norm_num

/-- Coefficient triple of the C4 counterexample instance. -/
theorem quarterVec_coeffs :
    zetaCoefficients quarterVec (3 / 2) 1 fourShape = (12 / 2401, 2 / 343, -(48 / 49)) := by
  rw [zetaCoefficients_closed]
  refine Prod.ext ?_ (Prod.ext ?_ ?_) <;>
    · simp [Fin.sum_univ_three, nPerMuSqOf, n1Of, s1Of, fgkInvOf, periSq, fourShape, quarterVec]
      norm_num

/-- Value of the solver at the C4 counterexample instance. -/
theorem quarterVec_pVec : pVecViaExcess quarterVec fourShape = ![2 / 5887, 0, 0] := by
  rw [pVec_formula quarterVec fourShape, quarterVec_eta0, quarterVec_grMag, quarterVec_coeffs]
  funext k
  fin_cases k <;> simp [quarterVec, fourShape, periSq] <;> norm_num

/-- C4 (counterexample): the point (1/2,0,0) satisfies the claim's surface
equation `∑ muSq[k]*p[k]^2 = 1` on the shape with all `muSq[k] = 4`, yet
the solver moves it by more than a quarter of its own magnitude, so the
solver is not idempotent-within-small-tolerance on the set the claim
describes. -/
theorem claim_C4_counterexample :
    (∑ k, fourShape.theMuSqs k * periSq (quarterVec k)) = 1 ∧
      1 / 4 * magnitude quarterVec <
        magnitude (pVecViaExcess quarterVec fourShape - quarterVec) := by
  constructor
  · simp [fourShape, quarterVec, periSq, Fin.sum_univ_three]
    norm_num
  · rw [quarterVec_magnitude, quarterVec_pVec]
    have hdif : magnitude (![2 / 5887, 0, 0] - quarterVec) = 5883 / 11774 := by
      refine magnitude_eval _ (5883 / 11774) (by norm_num) ?_
      simp [quarterVec, periSq]
      norm_num
    rw [hdif]
    norm_num

/-- Concrete point (1,0,0) used in the C4 witness. -/
def e0Vec : XYZ := ![1, 0, 0]

/-- Witness for the amended C4 at a concrete input: (1,0,0) on the unit
sphere is returned unchanged. -/
theorem claim_C4_witness :
    (∀ k, 0 < oneShape.theMuSqs k) ∧ e0Vec ≠ 0 ∧
      (∑ k, periSq (e0Vec k) / oneShape.theMuSqs k) = 1 ∧
      pVecViaExcess e0Vec oneShape = e0Vec := by
  have hmu : ∀ k, 0 < oneShape.theMuSqs k := fun k => by simp [oneShape]
  have hp : e0Vec ≠ 0 := by
    intro h
    have h0 := congrFun h 0
    simp [e0Vec] at h0
  have hsurf : (∑ k, periSq (e0Vec k) / oneShape.theMuSqs k) = 1 := by
    simp [e0Vec, oneShape, periSq, Fin.sum_univ_three]
  exact ⟨hmu, hp, hsurf, claim_C4_amended oneShape e0Vec hmu hp hsurf⟩

/-- Uniform sampling specification of demoExcess.cpp (peri::sim::SampleSpec
there): sample count and closed range; the spacing is computed on the fly. -/
structure SampleSpec where
  theNum : ℕ
  theRange : ℝ × ℝ

/-- Number of samples generated by this spec (demoExcess.cpp lines 50-56). -/
def SampleSpec.size (s : SampleSpec) : ℕ := s.theNum

/-- Spacing spanning the closed range (demoExcess.cpp lines 59-67):
`delta = (1/(theNum-1)) * (range.second - range.first)`, with the natural
subtraction mirroring the unsigned `theNum - 1`. -/
def SampleSpec.delta (s : SampleSpec) : ℝ :=
  1 / ((s.theNum - 1 : ℕ) : ℝ) * (s.theRange.2 - s.theRange.1)

/-- First included value (demoExcess.cpp lines 70-76). -/
def SampleSpec.begin (s : SampleSpec) : ℝ := s.theRange.1

/-- Value at a sampling index, unchecked (demoExcess.cpp lines 88-95). -/
def SampleSpec.valueAtIndex (s : SampleSpec) (ndx : ℕ) : ℝ :=
  s.begin + (ndx : ℝ) * s.delta

/-- Collection of samples per specification (demoExcess.cpp, free function
samplesFor, lines 100-114): push `valueAtIndex ndx` for `ndx` in
`[0, size)`. -/
def samplesFor (spec : SampleSpec) : List ℝ :=
  (List.range spec.size).map spec.valueAtIndex

/-- Sampling specification of periSim.h (peri::sim::SampleSpec there): the
spacing is precomputed by the constructor. -/
structure SimSampleSpec where
  theNumSamps : ℕ
  theRange : ℝ × ℝ
  theDelta : ℝ

/-- Spacing for a requested sampling (periSim.h, SampleSpec::deltaFor, lines
66-82): zero for a single sample, the division happens only when
`1 < numSamps`. -/
def deltaFor (numSamps : ℕ) (range : ℝ × ℝ) : ℝ :=
  if 1 < numSamps then 1 / ((numSamps - 1 : ℕ) : ℝ) * (range.2 - range.1) else 0

/-- Constructor of the periSim.h SampleSpec (lines 85-94). -/
def simSpecMk (numSamps : ℕ) (range : ℝ × ℝ) : SimSampleSpec :=
  ⟨numSamps, range, deltaFor numSamps range⟩

/-- Number of samples (periSim.h lines 96-103). -/
def SimSampleSpec.size (s : SimSampleSpec) : ℕ := s.theNumSamps

/-- First included value (periSim.h lines 114-121). -/
def SimSampleSpec.first (s : SimSampleSpec) : ℝ := s.theRange.1

/-- Value at a sampling index, unchecked (periSim.h lines 132-140). -/
def SimSampleSpec.valueAtIndex (s : SimSampleSpec) (ndx : ℕ) : ℝ :=
  s.first + (ndx : ℝ) * s.theDelta

/-- Collection of samples per specification (periSim.h, samplesAccordingTo,
lines 144-159). -/
def samplesAccordingTo (spec : SimSampleSpec) : List ℝ :=
  (List.range spec.size).map spec.valueAtIndex

/-- Conjunction verified for C5: the generated sequence has exactly `n`
values, value at index `i` is `lo + i*delta`, the first value is `lo`, the
last is `hi` (exactly, over the reals), the sequence is monotone when
`lo < hi`, and the periSim.h generator produces the same sequence. -/
def samplesSpecOk (n : ℕ) (lo hi : ℝ) : Prop :=
  (samplesFor ⟨n, (lo, hi)⟩).length = n ∧
    (∀ i, i < n → (samplesFor ⟨n, (lo, hi)⟩).get? i =
      some (lo + (i : ℝ) * SampleSpec.delta ⟨n, (lo, hi)⟩)) ∧
    (samplesFor ⟨n, (lo, hi)⟩).head? = some lo ∧
    (samplesFor ⟨n, (lo, hi)⟩).getLast? = some hi ∧
    (lo < hi → List.Sorted (· ≤ ·) (samplesFor ⟨n, (lo, hi)⟩)) ∧
    samplesAccordingTo (simSpecMk n (lo, hi)) = samplesFor ⟨n, (lo, hi)⟩

/-- Helper: the head of a list is its entry at index 0. -/
theorem head?_eq_get_zero (l : List ℝ) : l.head? = l.get? 0 := by
  cases l <;> rfl

/-- Helper: the last entry of a list is its entry at index `length - 1`. -/
theorem getLast?_eq_get_pred (l : List ℝ) : l.getLast? = l.get? (l.length - 1) := by
  induction l with
  | nil => rfl
  | cons a t ih =>
    cases t with
    | nil => rfl
    | cons b u =>
      rw [List.getLast?_cons_cons, ih]
      simp

/-- C5: for every sample count `n ≥ 2` and range `[lo, hi]`, the generated
sequence has exactly `n` values, the value at index `i` is `lo + i*delta`
with `delta = (hi-lo)/(n-1)`, the first value is `lo`, the last is `hi`
(exactly, over the reals), the values are monotone when `lo < hi`, and the
periSim.h generator agrees. -/
theorem claim_C5 (n : ℕ) (lo hi : ℝ) (hn : 2 ≤ n) : samplesSpecOk n lo hi := by
  have h1n : 1 < n := by omega
  have hpos : (0 : ℝ) < ((n - 1 : ℕ) : ℝ) := by
    have : 0 < n - 1 := by omega
    exact_mod_cast this
  have hlen : (samplesFor ⟨n, (lo, hi)⟩).length = n := by
    simp [samplesFor, SampleSpec.size]
  have hget : ∀ i, i < n → (samplesFor ⟨n, (lo, hi)⟩).get? i =
      some (lo + (i : ℝ) * SampleSpec.delta ⟨n, (lo, hi)⟩) := by
    intro i hi'
    simp only [samplesFor, SampleSpec.size]
    rw [List.get?_map, List.get?_range hi']
    rfl
  refine ⟨hlen, hget, ?_, ?_, ?_, ?_⟩
  · rw [head?_eq_get_zero, hget 0 (by omega)]
    simp
  · rw [getLast?_eq_get_pred, hlen, hget (n - 1) (by omega)]
    have hval : lo + ((n - 1 : ℕ) : ℝ) * SampleSpec.delta ⟨n, (lo, hi)⟩ = hi := by
      rw [SampleSpec.delta, ← mul_assoc, mul_one_div, div_self hpos.ne', one_mul]
      ring
    rw [hval]
  · intro hlohi
    have hd : 0 < SampleSpec.delta ⟨n, (lo, hi)⟩ := by
      rw [SampleSpec.delta]
      have : (0 : ℝ) < hi - lo := by linarith
      positivity
    rw [samplesFor]
    refine List.Pairwise.map _ ?_ (List.pairwise_lt_range n)
    intro a b hab
    rw [SampleSpec.valueAtIndex, SampleSpec.valueAtIndex]
    have : (a : ℝ) ≤ (b : ℝ) := by exact_mod_cast hab.le
    have := mul_le_mul_of_nonneg_right this hd.le
    simpa using by linarith
  · have hdelta : deltaFor n (lo, hi) = SampleSpec.delta ⟨n, (lo, hi)⟩ := by
      rw [deltaFor, if_pos h1n, SampleSpec.delta]
    simp [samplesAccordingTo, samplesFor, SimSampleSpec.size, SampleSpec.size,
      SimSampleSpec.valueAtIndex, SampleSpec.valueAtIndex, SimSampleSpec.first,
      SampleSpec.begin, simSpecMk, hdelta]

/-- Witness for C5 at a concrete input. -/
theorem claim_C5_witness : 2 ≤ 3 ∧ samplesSpecOk 3 0 1 :=
  ⟨by norm_num, claim_C5 3 0 1 (by norm_num)⟩

/-- C6: a periSim.h SampleSpec constructed with a single sample has spacing 0
(the guarded branch, no division), and the generated collection is the single
value `lo`. -/
theorem claim_C6 (lo hi : ℝ) :
    deltaFor 1 (lo, hi) = 0 ∧ samplesAccordingTo (simSpecMk 1 (lo, hi)) = [lo] := by
  constructor
  · rw [deltaFor, if_neg (by norm_num)]
  · have hr : List.range 1 = [0] := by decide
    simp [samplesAccordingTo, simSpecMk, SimSampleSpec.size, SimSampleSpec.valueAtIndex,
      SimSampleSpec.first, hr]

/-- Loop of the static member Samples::samplesFor (demoExcess.cpp lines
129-136), made total with a fuel argument: the loop condition in the source
is `spec.size()` (a nonzero test on the count), not `ndx < spec.size()`, so
each pass appends `valueAtIndex ndx` and continues whenever the count is
nonzero; `none` represents an execution that has not exited within the given
fuel. -/
def membSamplesLoop (spec : SampleSpec) : ℕ → ℕ → List ℝ → Option (List ℝ)
  | 0, _, _ => none
  | fuel + 1, ndx, acc =>
    if spec.size = 0 then some acc
    else membSamplesLoop spec fuel (ndx + 1) (acc ++ [spec.valueAtIndex ndx])

/-- Concrete sample spec with count 2 over the range [0, 1]. -/
def specW : SampleSpec := ⟨2, (0, 1)⟩

/-- C7 (code_bug evidence): on a spec with count 2, the member-function loop
of Samples::samplesFor never exits for any amount of fuel, start index and
accumulator — its condition `spec.size()` never becomes false — while the
sibling generators samplesFor (demoExcess.cpp) and samplesAccordingTo
(periSim.h) do terminate with exactly `count` values. -/
theorem claim_C7 :
    (∀ fuel ndx acc, membSamplesLoop specW fuel ndx acc = none) ∧
      (samplesFor specW).length = 2 ∧
      (samplesAccordingTo (simSpecMk 2 (0, 1))).length = 2 := by
  refine ⟨?_, ?_, ?_⟩
  · intro fuel
    induction fuel with
    | zero => intro ndx acc; rfl
    | succ m ih =>
      intro ndx acc
      rw [membSamplesLoop, if_neg (by simp [specW, SampleSpec.size])]
      exact ih (ndx + 1) (acc ++ [specW.valueAtIndex ndx])
  · simp [samplesFor, specW, SampleSpec.size]
  · simp [samplesAccordingTo, simSpecMk, SimSampleSpec.size]

/-- Length of a sample collection equals the spec's count. -/
theorem samplesFor_length (spec : SampleSpec) : (samplesFor spec).length = spec.size := by
  simp [samplesFor]

/-- Entry of a sample collection at an in-range index. -/
theorem samplesFor_get? (spec : SampleSpec) (i : ℕ) (hi : i < spec.size) :
    (samplesFor spec).get? i = some (spec.valueAtIndex i) := by
  simp only [samplesFor]
  rw [List.get?_map, List.get?_range hi]
  rfl

/-- Spherical-to-Cartesian direction for a parallel angle at a fixed
longitude (demoExcess.cpp lines 165-169). -/
def xyzDirFor (parVal lonVal : ℝ) : XYZ :=
  ![Real.cos parVal * Real.cos lonVal,
    Real.cos parVal * Real.sin lonVal,
    Real.sin parVal]

/-- Samples covering the meridian plane (demoExcess.cpp, meridianPlaneSamples,
lines 150-177): outer loop over parallel-angle samples, inner loop over
radius samples, each point being the radius sample times the direction. -/
def meridianPlaneSamples (radSpec parSpec : SampleSpec) (lonVal : ℝ) : List XYZ :=
  (samplesFor parSpec).flatMap fun parVal =>
    (samplesFor radSpec).map fun radVal => radVal • xyzDirFor parVal lonVal

/-- Length of a bind-of-maps grid is the product of the input lengths. -/
theorem bind_map_length {α β γ : Type} (as : List α) (bs : List β) (f : α → β → γ) :
    (as.flatMap fun a => bs.map (f a)).length = as.length * bs.length := by
  induction as with
  | nil => simp
  | cons a t ih =>
    rw [List.cons_bind, List.length_append, List.length_map, ih]
    simp [Nat.succ_mul, Nat.add_comm]

/-- Flat index lookup in a bind-of-maps grid: position `i * |bs| + j` holds
the image of the i-th outer and j-th inner element. -/
theorem bind_map_get? {α β γ : Type} (bs : List β) (f : α → β → γ) :
    ∀ (as : List α) (i j : ℕ), i < as.length → j < bs.length →
      (as.flatMap fun a => bs.map (f a)).get? (i * bs.length + j) =
        Option.bind (as.get? i) fun a => Option.map (f a) (bs.get? j) := by
  intro as
  induction as with
  | nil =>
    intro i j hi _
    simp at hi
  | cons a t ih =>
    intro i j hi hj
    cases i with
    | zero =>
      rw [List.cons_bind]
      simp only [Nat.zero_mul, Nat.zero_add]
      rw [List.get?_append (by simpa using hj), List.get?_map]
      rfl
    | succ m =>
      have hlenmap : (bs.map (f a)).length = bs.length := List.length_map bs _
      have hskip : (bs.map (f a)).length ≤ (m + 1) * bs.length + j := by
        rw [hlenmap, Nat.succ_mul]
        exact le_trans (Nat.le_add_left bs.length (m * bs.length))
          (Nat.le_add_right (m * bs.length + bs.length) j)
      rw [List.cons_bind, List.get?_append_right hskip]
      have harith : (m + 1) * bs.length + j - (bs.map (f a)).length = m * bs.length + j := by
        rw [hlenmap, Nat.succ_mul]
        omega
      rw [harith, ih m j (by simpa using hi) hj]
      rfl

/-- C8: the meridian-plane grid is a flat sequence of exactly `n*m` points
(outer loop over the `n` parallel-angle samples, inner loop over the `m`
radius samples), and the point for pair `(i, j)` is the j-th radius sample
times `(cos(par)*cos(lon), cos(par)*sin(lon), sin(par))` for the i-th
parallel sample. -/
theorem claim_C8 (radSpec parSpec : SampleSpec) (lonVal : ℝ) :
    (meridianPlaneSamples radSpec parSpec lonVal).length = parSpec.size * radSpec.size ∧
      ∀ i j, i < parSpec.size → j < radSpec.size →
        (meridianPlaneSamples radSpec parSpec lonVal).get? (i * radSpec.size + j) =
          some (radSpec.valueAtIndex j • xyzDirFor (parSpec.valueAtIndex i) lonVal) := by
  have hlr : (samplesFor radSpec).length = radSpec.size := samplesFor_length radSpec
  have hlp : (samplesFor parSpec).length = parSpec.size := samplesFor_length parSpec
  constructor
  · rw [meridianPlaneSamples, bind_map_length, hlr, hlp]
  · intro i j hi hj
    rw [meridianPlaneSamples, show i * radSpec.size + j = i * (samplesFor radSpec).length + j by
        rw [hlr],
      bind_map_get? (samplesFor radSpec) _ (samplesFor parSpec) i j (by rw [hlp]; exact hi)
        (by rw [hlr]; exact hj),
      samplesFor_get? parSpec i hi, samplesFor_get? radSpec j hj]
    rfl

/-- Witness for C8 at a concrete input. -/
theorem claim_C8_witness :
    1 < specW.size ∧ 0 < specW.size ∧
      (meridianPlaneSamples specW specW 0).get? (1 * specW.size + 0) =
        some (specW.valueAtIndex 0 • xyzDirFor (specW.valueAtIndex 1) 0) := by
  have h1 : 1 < specW.size := by simp [specW, SampleSpec.size]
  have h0 : 0 < specW.size := by simp [specW, SampleSpec.size]
  exact ⟨h1, h0, (claim_C8 specW specW 0).2 1 0 h1 h0⟩

/-- Exact perpendicular foot point of a sampled point: round trip through the
abstract exact transforms with the altitude zeroed (demoExcess.cpp lines
206-212; the transforms `lpaForXyz` / `xyzForLpa` are external collaborators
and stay abstract). -/
def pExactOf (lpaForXyz : XYZ → LPA) (xyzForLpa : LPA → XYZ) (xVec : XYZ) : XYZ :=
  xyzForLpa ![lpaForXyz xVec 0, lpaForXyz xVec 1, 0]

/-- Per-point excess of test1 (demoExcess.cpp lines 214-226):
`extra = |x - r| - |x - p|`. -/
def test1Extra (lpaForXyz : XYZ → LPA) (xyzForLpa : LPA → XYZ) (shape : Shape)
    (xVec : XYZ) : ℝ :=
  magnitude (xVec - test1RVecOf xVec shape) -
    magnitude (xVec - pExactOf lpaForXyz xyzForLpa xVec)

/-- Collected excess values of test1 over the grid (demoExcess.cpp lines
201-226). -/
def test1Extras (lpaForXyz : XYZ → LPA) (xyzForLpa : LPA → XYZ) (shape : Shape)
    (xyzs : List XYZ) : List ℝ :=
  xyzs.map (test1Extra lpaForXyz xyzForLpa shape)

/-- Reported pair (minExcess, maxExcess) of test1 (demoExcess.cpp lines
260-266): sort the collected values, report front and back. -/
def test1Report (lpaForXyz : XYZ → LPA) (xyzForLpa : LPA → XYZ) (shape : Shape)
    (xyzs : List XYZ) : Option ℝ × Option ℝ :=
  ((List.insertionSort (· ≤ ·) (test1Extras lpaForXyz xyzForLpa shape xyzs)).head?,
   (List.insertionSort (· ≤ ·) (test1Extras lpaForXyz xyzForLpa shape xyzs)).getLast?)

/-- Helper: the head of a sorted list bounds every element from below. -/
theorem sorted_head_le (l : List ℝ) (hs : List.Sorted (· ≤ ·) l) (hne : l ≠ []) :
    ∀ b ∈ l, l.head hne ≤ b := by
  cases l with
  | nil => exact absurd rfl hne
  | cons a t =>
    intro b hb
    rcases List.mem_cons.mp hb with h | h
    · rw [h]
      exact le_refl _
    · exact List.rel_of_sorted_cons hs b h

/-- Helper: the last entry of a sorted list bounds every element from above. -/
theorem sorted_le_getLast (l : List ℝ) (hs : List.Sorted (· ≤ ·) l) (hne : l ≠ []) :
    ∀ b ∈ l, b ≤ l.getLast hne := by
  induction l with
  | nil => exact absurd rfl hne
  | cons a t ih =>
    intro b hb
    cases t with
    | nil =>
      rcases List.mem_cons.mp hb with h | h
      · rw [h]
        exact le_refl _
      · exact absurd h (List.not_mem_nil b)
    | cons c u =>
      rw [List.getLast_cons (List.cons_ne_nil c u)]
      rcases List.mem_cons.mp hb with h | h
      · rw [h]
        exact List.rel_of_sorted_cons hs _ (List.getLast_mem (List.cons_ne_nil c u))
      · exact ih hs.of_cons (List.cons_ne_nil c u) b h

/-- C9: for a non-empty grid the collected values of the excess check are
exactly `|x - r| - |x - p_exact|` per sampled point, and the reported pair is
(minimum, maximum) of the collection: both reported values belong to the
collection and bound every collected value. -/
theorem claim_C9 (lpaForXyz : XYZ → LPA) (xyzForLpa : LPA → XYZ) (shape : Shape)
    (xyzs : List XYZ) (hne : xyzs ≠ []) :
    test1Extras lpaForXyz xyzForLpa shape xyzs =
        xyzs.map (fun x =>
          magnitude (x - test1RVecOf x shape) -
            magnitude (x - pExactOf lpaForXyz xyzForLpa x)) ∧
      ∃ mn mx, test1Report lpaForXyz xyzForLpa shape xyzs = (some mn, some mx) ∧
        mn ∈ test1Extras lpaForXyz xyzForLpa shape xyzs ∧
        mx ∈ test1Extras lpaForXyz xyzForLpa shape xyzs ∧
        ∀ e ∈ test1Extras lpaForXyz xyzForLpa shape xyzs, mn ≤ e ∧ e ≤ mx := by
  refine ⟨rfl, ?_⟩
  have hl : test1Extras lpaForXyz xyzForLpa shape xyzs ≠ [] := by
    simp [test1Extras, hne]
  have hperm : List.Perm
      (List.insertionSort (· ≤ ·) (test1Extras lpaForXyz xyzForLpa shape xyzs))
      (test1Extras lpaForXyz xyzForLpa shape xyzs) :=
    List.perm_insertionSort _ _
  have hsort : List.Sorted (· ≤ ·)
      (List.insertionSort (· ≤ ·) (test1Extras lpaForXyz xyzForLpa shape xyzs)) :=
    List.sorted_insertionSort _ _
  have hsne : List.insertionSort (· ≤ ·) (test1Extras lpaForXyz xyzForLpa shape xyzs) ≠ [] := by
    intro h
    apply hl
    rw [← List.length_eq_zero, ← hperm.length_eq, h]
    rfl
  refine ⟨(List.insertionSort (· ≤ ·) (test1Extras lpaForXyz xyzForLpa shape xyzs)).head hsne,
    (List.insertionSort (· ≤ ·) (test1Extras lpaForXyz xyzForLpa shape xyzs)).getLast hsne,
    ?_, ?_, ?_, ?_⟩
  · rw [test1Report, List.head?_eq_head hsne, List.getLast?_eq_getLast_of_ne_nil hsne]
  · exact hperm.mem_iff.mp (List.head_mem hsne)
  · exact hperm.mem_iff.mp (List.getLast_mem hsne)
  · intro e he
    have hes : e ∈ List.insertionSort (· ≤ ·) (test1Extras lpaForXyz xyzForLpa shape xyzs) :=
      hperm.mem_iff.mpr he
    exact ⟨sorted_head_le _ hsort hsne e hes, sorted_le_getLast _ hsort hsne e hes⟩

/-- Zero transform used to instantiate the abstract exact transforms in
witnesses. -/
def zeroLpaForXyz : XYZ → LPA := fun _ _ => 0

/-- Zero transform used to instantiate the abstract exact transforms in
witnesses. -/
def zeroXyzForLpa : LPA → XYZ := fun _ _ => 0

/-- Witness for C9 at a concrete input. -/
theorem claim_C9_witness :
    ([onesVec] : List XYZ) ≠ [] ∧
      (test1Extras zeroLpaForXyz zeroXyzForLpa oneShape [onesVec] =
          [onesVec].map (fun x =>
            magnitude (x - test1RVecOf x oneShape) -
              magnitude (x - pExactOf zeroLpaForXyz zeroXyzForLpa x)) ∧
        ∃ mn mx, test1Report zeroLpaForXyz zeroXyzForLpa oneShape [onesVec] =
            (some mn, some mx) ∧
          mn ∈ test1Extras zeroLpaForXyz zeroXyzForLpa oneShape [onesVec] ∧
          mx ∈ test1Extras zeroLpaForXyz zeroXyzForLpa oneShape [onesVec] ∧
          ∀ e ∈ test1Extras zeroLpaForXyz zeroXyzForLpa oneShape [onesVec],
            mn ≤ e ∧ e ≤ mx) := by
  have hne : ([onesVec] : List XYZ) ≠ [] := by simp
  exact ⟨hne, claim_C9 zeroLpaForXyz zeroXyzForLpa oneShape [onesVec] hne⟩

/-- Returned error count of test1 (demoExcess.cpp lines 184-270): `errCount`
starts at 0, the sampling loop and the min/max report never touch it, and the
unconditional `++errCount` before the return makes the result 1; the computed
excess collection is bound but cannot influence the count. -/
def test1ErrCount (lpaForXyz : XYZ → LPA) (xyzForLpa : LPA → XYZ) (shape : Shape)
    (xyzs : List XYZ) : ℤ :=
  let _extras := test1Extras lpaForXyz xyzForLpa shape xyzs
  let _report := test1Report lpaForXyz xyzForLpa shape xyzs
  0 + 1

/-- Returned error count of checkXYZ (demoExcess.cpp lines 363-392): the
foot-point error magnitude is computed and written out, and the function
returns the constant 0. -/
def checkXYZErr (lpaForXyz : XYZ → LPA) (xyzForLpa : LPA → XYZ) (shape : Shape)
    (xVec : XYZ) : ℤ :=
  let _pMagDif :=
    magnitude (pVecViaExcess xVec shape - pExactOf lpaForXyz xyzForLpa xVec)
  0

/-- Returned error count of test2 (demoExcess.cpp lines 395-414): sum of the
checkXYZ results over the grid. -/
def test2ErrCount (lpaForXyz : XYZ → LPA) (xyzForLpa : LPA → XYZ) (shape : Shape)
    (xyzs : List XYZ) : ℤ :=
  xyzs.foldl (fun acc xyz => acc + checkXYZErr lpaForXyz xyzForLpa shape xyz) 0

/-- Returned error count of main (demoExcess.cpp lines 420-458): `errCount`
starts at 0 and accumulates the results of test1 and test2 over the meridian
grid at longitude pi/4 (the default of meridianPlaneSamples). -/
def mainErrCount (lpaForXyz : XYZ → LPA) (xyzForLpa : LPA → XYZ) (shape : Shape)
    (radSpec parSpec : SampleSpec) : ℤ :=
  0 +
    test1ErrCount lpaForXyz xyzForLpa shape
      (meridianPlaneSamples radSpec parSpec (0.25 * Real.pi)) +
    test2ErrCount lpaForXyz xyzForLpa shape
      (meridianPlaneSamples radSpec parSpec (0.25 * Real.pi))

/-- Helper: the test2 accumulation only ever adds zero. -/
theorem test2_foldl (lpaForXyz : XYZ → LPA) (xyzForLpa : LPA → XYZ) (shape : Shape) :
    ∀ (xyzs : List XYZ) (acc : ℤ),
      xyzs.foldl (fun a xyz => a + checkXYZErr lpaForXyz xyzForLpa shape xyz) acc = acc := by
  intro xyzs
  induction xyzs with
  | nil => intro acc; rfl
  | cons x t ih =>
    intro acc
    rw [List.foldl_cons]
    have hc : checkXYZErr lpaForXyz xyzForLpa shape x = 0 := rfl
    rw [hc, add_zero, ih acc]

/-- C10: the harness's error counts are constants: test1 always returns 1
(the unconditional increment), checkXYZ always returns 0, test2 always
returns 0, and main therefore always returns 1, for every grid, point, shape
and exact-transform pair. -/
theorem claim_C10 (lpaForXyz : XYZ → LPA) (xyzForLpa : LPA → XYZ) (shape : Shape)
    (radSpec parSpec : SampleSpec) (xVec : XYZ) (xyzs : List XYZ) :
    test1ErrCount lpaForXyz xyzForLpa shape xyzs = 1 ∧
      checkXYZErr lpaForXyz xyzForLpa shape xVec = 0 ∧
      test2ErrCount lpaForXyz xyzForLpa shape xyzs = 0 ∧
      mainErrCount lpaForXyz xyzForLpa shape radSpec parSpec = 1 := by
  refine ⟨rfl, rfl, test2_foldl lpaForXyz xyzForLpa shape xyzs 0, ?_⟩
  rw [mainErrCount, test2ErrCount, test2_foldl lpaForXyz xyzForLpa shape _ 0]
  rfl
